import Mathlib

/-!
Verification of `homework_practice_09_em_Buylova_Vera/preprocessing.py`.

The Python module is embedded shallowly:

* Python lists become `List`, tuples become pairs or `List Int`.
* CPython dicts iterate in insertion order, so a dict is modelled as an
  association list whose keys appear in insertion order
  (`List (Token × Nat)`); `token in d` / `d[token]` become `List.lookup`.
* Python's `sorted` is a stable sort, so it is modelled by `List.mergeSort`,
  which is stable for the comparison it is given.
* `np.ndarray` of int32 token indices is modelled as `List Nat` (a vocabulary
  index is a dense nonnegative index; numpy would raise on values outside
  int32 range rather than wrap, and such vocabularies never reach the
  conversion in the claims considered here).
* The `xml.etree.ElementTree` access pattern used by `extract_sentences` is
  modelled in two layers: a parsed document is a list of sentence elements
  whose fields carry `find` results and their `.text` values, and the
  ampersand repair of lines 52-57 is modelled at the character-data level by
  `replaceAmp` / `decodeEntities` below.
* Python exceptions propagating out of `extract_sentences` are modelled with
  `Except Err`.
-/

namespace Preprocessing

/-- A token: a whitespace-delimited unit of text. -/
abbrev Token := String

/-- Contains lists of tokens (strings) for source and target sentence
(dataclass `SentencePair` of preprocessing.py). -/
structure SentencePair where
  source : List Token
  target : List Token
deriving DecidableEq

/-- Contains arrays of token vocabulary indices for source and target sentence
(dataclass `TokenizedSentencePair` of preprocessing.py; the np.int32 arrays
are modelled as lists of natural numbers). -/
structure TokenizedSentencePair where
  source_tokens : List Nat
  target_tokens : List Nat
deriving DecidableEq

/-- Contains lists of alignments for a given sentence, positions numbered
from 1 (dataclass `LabeledAlignment` of preprocessing.py).  Each alignment
entry is the tuple produced from one `i-j` token; the code builds it with
`tuple(map(int, ...))`, so its arity is whatever the token yields, hence
`List Int` rather than a fixed pair. -/
structure LabeledAlignment where
  sure : List (List Int)
  possible : List (List Int)
deriving DecidableEq

/-- A token-to-index dictionary: an association list in insertion order, as a
CPython dict. -/
abbrev Vocab := List (Token × Nat)

/-- Splitting a character list at every character satisfying `p`, keeping
empty fields (so `splitP p [] = [[]]`), as Python `str.split` with an
explicit separator does. -/
def splitP (p : Char → Bool) : List Char → List (List Char)
  | [] => [[]]
  | c :: rest =>
    if p c then [] :: splitP p rest
    else
      match splitP p rest with
      | [] => [[c]]
      | g :: gs => (c :: g) :: gs

/-- Python `s.split()` with no separator: split on whitespace and discard
empty fields. -/
def pySplit (s : String) : List String :=
  ((splitP (fun c => c.isWhitespace) s.data).map List.asString).filter (fun t => t ≠ "")

/-- Validity of the digit part of a Python integer literal: a nonempty digit
string in which single underscores may separate digits (`int("1_2")` is 12,
while `int("")`, `int("_1")`, `int("1_")` and `int("1__2")` raise). -/
def isDigitPart : List Char → Bool
  | [] => false
  | [c] => c.isDigit
  | c :: d :: rest =>
    if d = '_' then c.isDigit && isDigitPart rest
    else c.isDigit && isDigitPart (d :: rest)

/-- Numeric value of a digit part, ignoring underscore separators. -/
def digitsVal (cs : List Char) : Nat :=
  (cs.filter (fun c => c ≠ '_')).foldl (fun acc c => 10 * acc + (c.toNat - '0'.toNat)) 0

/-- Python `int(s)` on the strings that occur as `-`-split parts of
whitespace-split alignment tokens: an optional sign followed by a digit part;
`none` models `ValueError`.  (Python additionally strips surrounding
whitespace and accepts non-ASCII decimal digits; neither form occurs in the
parts of a whitespace-split token over ASCII corpus data.) -/
def pyInt (s : String) : Option Int :=
  match s.data with
  | [] => none
  | c :: rest =>
    if c = '+' then
      if isDigitPart rest then some (Int.ofNat (digitsVal rest)) else none
    else if c = '-' then
      if isDigitPart rest then some (-Int.ofNat (digitsVal rest)) else none
    else
      if isDigitPart (c :: rest) then some (Int.ofNat (digitsVal (c :: rest))) else none

/-- One step of frequency counting, `freq[token] = freq.get(token, 0) + 1` on
an insertion-ordered dict: increment in place, or append a new key. -/
def bump : List (Token × Nat) → Token → List (Token × Nat)
  | [], t => [(t, 1)]
  | (k, v) :: rest, t =>
    if k = t then (k, v + 1) :: rest else (k, v) :: bump rest t

/-- The frequency dict accumulated over a token stream (lines 91-96 of
preprocessing.py, flattened to one stream per language): keys appear in
first-occurrence order. -/
def countFreq (ts : List Token) : List (Token × Nat) :=
  ts.foldl bump []

/-- All source-side tokens of a corpus, in corpus order. -/
def sourceTokens (sentence_pairs : List SentencePair) : List Token :=
  (sentence_pairs.map SentencePair.source).flatten

/-- All target-side tokens of a corpus, in corpus order. -/
def targetTokens (sentence_pairs : List SentencePair) : List Token :=
  (sentence_pairs.map SentencePair.target).flatten

/-- Total lookup `freq[x]` for keys known to be present (`freq.get` style
default 0 otherwise). -/
def freqOf (m : List (Token × Nat)) (t : Token) : Nat :=
  (m.lookup t).getD 0

/-- `sorted(freq, key=lambda x: freq[x], reverse=True)`: Python's sort is
stable, and with `reverse=True` it orders keys by non-increasing frequency
keeping tied keys in dict iteration order; `mergeSort` with this comparison
is exactly such a stable sort. -/
def sortByFreqDesc (m : List (Token × Nat)) : List Token :=
  (m.map Prod.fst).mergeSort (fun a b => decide (freqOf m b ≤ freqOf m a))

/-- `sorted(freq)`: the dict keys in lexicographic (code-point) ascending
order. -/
def sortLex (m : List (Token × Nat)) : List Token :=
  (m.map Prod.fst).mergeSort (fun a b => decide (a ≤ b))

/-- `{token: index for index, token in enumerate(tokens)}`: assign dense
indices in list order. -/
def enumerate (l : List Token) : Vocab :=
  l.zip (List.range l.length)

/-- `get_token_to_index` of preprocessing.py (lines 76-105): count token
frequencies per language; with a cutoff keep the `freq_cutoff` most frequent
tokens (stable descending sort, then truncate), otherwise sort all distinct
tokens lexicographically; then enumerate. -/
def get_token_to_index (sentence_pairs : List SentencePair) (freq_cutoff : Option Nat) :
    Vocab × Vocab :=
  let source_freq := countFreq (sourceTokens sentence_pairs)
  let target_freq := countFreq (targetTokens sentence_pairs)
  match freq_cutoff with
  | some c =>
      (enumerate ((sortByFreqDesc source_freq).take c),
       enumerate ((sortByFreqDesc target_freq).take c))
  | none =>
      (enumerate (sortLex source_freq), enumerate (sortLex target_freq))

/-- `tokenize_sents` of preprocessing.py (lines 108-131): per pair, keep the
indices of the tokens present in the respective dict; skip pairs where either
side comes out empty. -/
def tokenize_sents : List SentencePair → Vocab → Vocab → List TokenizedSentencePair
  | [], _, _ => []
  | pair :: rest, source_dict, target_dict =>
    let source_tokens := pair.source.filterMap (fun t => source_dict.lookup t)
    let target_tokens := pair.target.filterMap (fun t => target_dict.lookup t)
    if source_tokens = [] ∨ target_tokens = [] then
      tokenize_sents rest source_dict target_dict
    else
      ⟨source_tokens, target_tokens⟩ :: tokenize_sents rest source_dict target_dict

/-- The view of one `<s>` element that `extract_sentences` reads through
ElementTree: each field holds the result of `sentence.find(tag)` (`none` when
the child element is missing) and, inside, that element's `.text` (`none`
when the element has no text content — ElementTree never yields an empty
string for a parsed element without text). -/
structure SentenceElem where
  english : Option (Option String)
  czech : Option (Option String)
  possible : Option (Option String)
  sure : Option (Option String)
deriving DecidableEq

/-- The exceptions that can propagate out of `extract_sentences`, under the
names the specification gives them: `ParseError` for unparseable XML,
`MissingFieldError` for the AttributeError raised when a required element or
its text is absent, `FormatError` for the ValueError raised by `int` on a
malformed alignment token. -/
inductive Err where
  | ParseError
  | MissingFieldError
  | FormatError
deriving DecidableEq

/-- Left-to-right traversal of a list under `Option`, as Python evaluates
`map(int, parts)` inside `tuple`: the first failing element raises. -/
def mapOpt {α β : Type} (f : α → Option β) : List α → Option (List β)
  | [] => some []
  | x :: xs =>
    match f x with
    | none => none
    | some y =>
      match mapOpt f xs with
      | none => none
      | some ys => some (y :: ys)

/-- The dash-split parts of one alignment token, `val.split('-')`. -/
def dashParts (val : String) : List String :=
  (splitP (fun c => c = '-') val.data).map List.asString

/-- `tuple(map(int, val.split('-')))` for one alignment token: split on every
dash and parse each part as an integer; any unparsable part raises
(FormatError). -/
def parseTok (val : String) : Except Err (List Int) :=
  match mapOpt pyInt (dashParts val) with
  | some xs => Except.ok xs
  | none => Except.error Err.FormatError

/-- Left-to-right traversal of a list under `Except Err`, as Python evaluates
a list comprehension: the first raising element propagates. -/
def mapExc {α β : Type} (f : α → Except Err β) : List α → Except Err (List β)
  | [] => Except.ok []
  | x :: xs =>
    match f x with
    | Except.error e => Except.error e
    | Except.ok y =>
      match mapExc f xs with
      | Except.error e => Except.error e
      | Except.ok ys => Except.ok (y :: ys)

/-- One alignment field: `(text or "").split()` then per-token parsing
(lines 60-66 of preprocessing.py); the argument is the field's `.text`. -/
def parseAlignField (txt : Option String) : Except Err (List (List Int)) :=
  mapExc parseTok (pySplit (txt.getD ""))

/-- The loop body of `extract_sentences` (lines 58-69) on one sentence
element, in Python evaluation order: the `find` results for all four tags are
dereferenced for `.text` first (AttributeError, i.e. MissingFieldError, when
a tag is missing), the `possible` then `sure` fields are parsed, and only
then are the english and czech texts split — so a null text on those raises
after the alignment fields have been read. -/
def processSentence (s : SentenceElem) : Except Err (SentencePair × LabeledAlignment) :=
  match s.english, s.czech, s.possible, s.sure with
  | some engTxt, some czTxt, some possTxt, some sureTxt =>
    match parseAlignField possTxt with
    | Except.error e => Except.error e
    | Except.ok possible_alignments =>
      match parseAlignField sureTxt with
      | Except.error e => Except.error e
      | Except.ok sure_alignments =>
        match engTxt, czTxt with
        | some eng, some cz =>
            Except.ok (⟨pySplit eng, pySplit cz⟩,
                       ⟨sure_alignments, possible_alignments⟩)
        | _, _ => Except.error Err.MissingFieldError
  | _, _, _, _ => Except.error Err.MissingFieldError

/-- `extract_sentences` of preprocessing.py (lines 36-72) over the parsed
document: the list of sentence elements found by `tree.findall` in document
order.  One SentencePair and one LabeledAlignment are appended per element;
any exception abandons both lists and propagates. -/
def extract_sentences : List SentenceElem → Except Err (List SentencePair × List LabeledAlignment)
  | [] => Except.ok ([], [])
  | s :: rest =>
    match processSentence s with
    | Except.error e => Except.error e
    | Except.ok (p, a) =>
      match extract_sentences rest with
      | Except.error e => Except.error e
      | Except.ok (ps, als) => Except.ok (p :: ps, a :: als)

/-- `tx.replace` of line 54 of preprocessing.py, replacing every ampersand
with its decimal character reference, at the character-list level. -/
def replaceAmp : List Char → List Char
  | [] => []
  | c :: rest =>
    if c = '&' then '&' :: '#' :: '3' :: '8' :: ';' :: replaceAmp rest
    else c :: replaceAmp rest

/-- A character from a numeric character-reference code, `none` when the code
is not a scalar value. -/
def charOfCode (n : Nat) : Option Char :=
  if n.isValidChar then some (Char.ofNat n) else none

/-- Whether a character is a hexadecimal digit. -/
def isHexDigit (c : Char) : Bool :=
  c.isDigit || ('a' ≤ c && c ≤ 'f') || ('A' ≤ c && c ≤ 'F')

/-- Value of one hexadecimal digit. -/
def hexDigitVal (c : Char) : Nat :=
  if c.isDigit then c.toNat - '0'.toNat
  else if 'a' ≤ c then c.toNat - 'a'.toNat + 10
  else c.toNat - 'A'.toNat + 10

/-- Resolution of one XML reference name (the characters strictly between the
ampersand and the semicolon), as ElementTree's parser resolves references in
character data: decimal and hexadecimal character references and the five
predefined entities. -/
def decodeName (name : List Char) : Option Char :=
  match name with
  | '#' :: 'x' :: ds =>
    if ds ≠ [] ∧ ds.all isHexDigit then
      charOfCode (ds.foldl (fun a c => 16 * a + hexDigitVal c) 0)
    else none
  | '#' :: ds =>
    if ds ≠ [] ∧ ds.all Char.isDigit then
      charOfCode (ds.foldl (fun a c => 10 * a + (c.toNat - '0'.toNat)) 0)
    else none
  | ds =>
    if ds = String.data "amp" then some '&'
    else if ds = String.data "lt" then some '<'
    else if ds = String.data "gt" then some '>'
    else if ds = String.data "quot" then some '"'
    else if ds = String.data "apos" then some '\''
    else none

/-- One character of XML character-data scanning: the state carries the
decoded output so far (reversed) and, while inside a reference, the name read
since the ampersand (reversed); `none` is the failed state. -/
def decodeStep : Option (List Char × Option (List Char)) → Char →
    Option (List Char × Option (List Char))
  | none, _ => none
  | some (out, none), c =>
    if c = '&' then some (out, some []) else some (c :: out, none)
  | some (out, some name), c =>
    if c = ';' then
      match decodeName name.reverse with
      | none => none
      | some d => some (d :: out, none)
    else some (out, some (c :: name))

/-- XML character-data decoding as the parser performs it on a text field:
every ampersand must open a reference terminated by a semicolon and resolve;
`none` models the parse failure strict XML parsing raises on a malformed
reference (in particular on a bare ampersand). -/
def decodeEntities (cs : List Char) : Option (List Char) :=
  match cs.foldl decodeStep (some ([], none)) with
  | some (out, none) => some out.reverse
  | _ => none

/-- Lines 52-57 of preprocessing.py at the character-data level: when the
text contains an ampersand, replace every ampersand by its character
reference and parse the repaired text; otherwise parse the text directly. -/
def processRawText (cs : List Char) : Option (List Char) :=
  if '&' ∈ cs then decodeEntities (replaceAmp cs) else decodeEntities cs

/-- Specification-side per-pair encoding for the sentence encoder: map each
side through its vocabulary dropping out-of-vocabulary tokens, and drop the
pair when either side comes out empty.  Stated from the words of the
specification, to be compared with `tokenize_sents`. -/
def encodePair (source_dict target_dict : Vocab) (p : SentencePair) :
    Option TokenizedSentencePair :=
  let s := p.source.filterMap (fun t => source_dict.lookup t)
  let t := p.target.filterMap (fun t => target_dict.lookup t)
  if s = [] ∨ t = [] then none else some ⟨s, t⟩

/-- Specification-side predicate for claim C8: the `int-int` pattern, two
decimal integers joined by a single dash. -/
def specIntInt (val : String) : Bool :=
  match splitP (fun c => c = '-') val.data with
  | [a, b] => !a.isEmpty && a.all Char.isDigit && !b.isEmpty && b.all Char.isDigit
  | _ => false

/-- Specification-side order for claim C10: strictly greater corpus frequency
first; on equal frequency, the token whose first occurrence in the corpus
token stream comes earlier precedes. -/
def freqRank (ts : List Token) (a b : Token) : Prop :=
  ts.count b < ts.count a ∨ (ts.count a = ts.count b ∧ ts.indexOf a < ts.indexOf b)

/-- Decidable equality of `Except` results, for evaluating concrete runs. -/
instance exceptDecEq {ε α : Type} [DecidableEq ε] [DecidableEq α] :
    DecidableEq (Except ε α)
  | Except.error e, Except.error f =>
    if h : e = f then isTrue (by rw [h]) else isFalse (fun c => h (Except.error.inj c))
  | Except.error _, Except.ok _ => isFalse Except.noConfusion
  | Except.ok _, Except.error _ => isFalse Except.noConfusion
  | Except.ok a, Except.ok b =>
    if h : a = b then isTrue (by rw [h]) else isFalse (fun c => h (Except.ok.inj c))

/-- The keys of a dict, in iteration order. -/
def keys (m : List (Token × Nat)) : List Token :=
  m.map Prod.fst

/-- First-occurrence order of the distinct tokens of a stream: the key order
of the frequency dict. -/
def firstOccs (ts : List Token) : List Token :=
  ts.foldl (fun ks t => if t ∈ ks then ks else ks ++ [t]) []

/-! ## General helper lemmas -/

theorem lookup_isSome_iff (m : Vocab) (t : Token) :
    (m.lookup t).isSome ↔ t ∈ keys m := by
  induction m with
  | nil => simp [keys]
  | cons kv rest ih =>
    obtain ⟨k, v⟩ := kv
    by_cases h : t = k
    · subst h; simp [List.lookup, keys]
    · simp [List.lookup, keys, h, ih, beq_false_of_ne h]

theorem lookup_mem {m : Vocab} {t : Token} {i : Nat} (h : m.lookup t = some i) :
    (t, i) ∈ m := by
  induction m with
  | nil => simp [List.lookup] at h
  | cons kv rest ih =>
    obtain ⟨k, v⟩ := kv
    by_cases hk : t = k
    · subst hk
      simp [List.lookup] at h
      simp [h]
    · simp [List.lookup, beq_false_of_ne hk] at h
      simp [ih h]

theorem keys_enumerate (l : List Token) : keys (enumerate l) = l := by
  simp [keys, enumerate, List.map_fst_zip, List.length_range, Nat.le_refl]

theorem snd_enumerate (l : List Token) :
    (enumerate l).map Prod.snd = List.range l.length := by
  simp [enumerate, List.map_snd_zip, List.length_range, Nat.le_refl]

theorem length_enumerate (l : List Token) : (enumerate l).length = l.length := by
  simp [enumerate]

theorem lookup_enumerate_lt {l : List Token} {t : Token} {i : Nat}
    (h : (enumerate l).lookup t = some i) : i < l.length := by
  have hm : (t, i) ∈ enumerate l := lookup_mem h
  have : i ∈ (enumerate l).map Prod.snd := List.mem_map.mpr ⟨(t, i), hm, rfl⟩
  rw [snd_enumerate] at this
  exact List.mem_range.mp this

theorem tokenize_sents_eq_filterMap (sps : List SentencePair) (sd td : Vocab) :
    tokenize_sents sps sd td = sps.filterMap (encodePair sd td) := by
  induction sps with
  | nil => rfl
  | cons p rest ih =>
    simp only [tokenize_sents, List.filterMap_cons, encodePair]
    split
    · simpa using ih
    · simpa using ih

/-! ## Helper lemmas for the ampersand layer -/

theorem replaceAmp_no_amp {cs : List Char} (h : '&' ∉ cs) : replaceAmp cs = cs := by
  induction cs with
  | nil => rfl
  | cons c rest ih =>
    have hc : c ≠ '&' := fun e => h (e ▸ List.mem_cons_self c rest)
    have hrest : '&' ∉ rest := fun m => h (List.mem_cons_of_mem c m)
    simp [replaceAmp, hc, ih hrest]

theorem replaceAmp_cons_amp (rest : List Char) :
    replaceAmp ('&' :: rest) = '&' :: '#' :: '3' :: '8' :: ';' :: replaceAmp rest := by
  simp [replaceAmp]

theorem replaceAmp_cons_other {c : Char} (hc : c ≠ '&') (rest : List Char) :
    replaceAmp (c :: rest) = c :: replaceAmp rest := by
  simp [replaceAmp, hc]

theorem foldl_decodeStep_amp (out l : List Char) :
    List.foldl decodeStep (some (out, none)) ('&' :: '#' :: '3' :: '8' :: ';' :: l)
      = List.foldl decodeStep (some ('&' :: out, none)) l := rfl

theorem foldl_decodeStep_other {c : Char} (hc : c ≠ '&') (out l : List Char) :
    List.foldl decodeStep (some (out, none)) (c :: l)
      = List.foldl decodeStep (some (c :: out, none)) l := by
  rw [List.foldl_cons]
  congr 1
  simp [decodeStep, hc]

theorem foldl_decodeStep_replaceAmp (cs : List Char) :
    ∀ out : List Char,
      (replaceAmp cs).foldl decodeStep (some (out, none)) = some (cs.reverse ++ out, none) := by
  induction cs with
  | nil => intro out; simp [replaceAmp]
  | cons c rest ih =>
    intro out
    by_cases hc : c = '&'
    · subst hc
      rw [replaceAmp_cons_amp, foldl_decodeStep_amp, ih ('&' :: out)]
      simp
    · rw [replaceAmp_cons_other hc, foldl_decodeStep_other hc, ih (c :: out)]
      simp

theorem decodeEntities_replaceAmp (cs : List Char) :
    decodeEntities (replaceAmp cs) = some cs := by
  rw [decodeEntities, foldl_decodeStep_replaceAmp cs []]
  simp

/-! ## Helper lemmas for alignment-token parsing -/

theorem mapOpt_eq_none_of_mem {α β : Type} {f : α → Option β} {l : List α} {x : α}
    (hm : x ∈ l) (hf : f x = none) : mapOpt f l = none := by
  induction l with
  | nil => simp at hm
  | cons a as ih =>
    rw [mapOpt]
    rcases List.mem_cons.mp hm with rfl | hm2
    · rw [hf]
    · cases ha : f a with
      | none => rfl
      | some y => rw [ih hm2]

theorem exists_none_of_mapOpt {α β : Type} {f : α → Option β} {l : List α}
    (h : mapOpt f l = none) : ∃ x ∈ l, f x = none := by
  induction l with
  | nil => simp [mapOpt] at h
  | cons a as ih =>
    rw [mapOpt] at h
    cases ha : f a with
    | none => exact ⟨a, List.mem_cons_self a as, ha⟩
    | some y =>
      rw [ha] at h
      cases has : mapOpt f as with
      | none =>
        obtain ⟨x, hx, hfx⟩ := ih has
        exact ⟨x, List.mem_cons_of_mem a hx, hfx⟩
      | some ys => rw [has] at h; cases h

theorem parseTok_error_iff (val : String) :
    parseTok val = Except.error Err.FormatError ↔
      ∃ part ∈ dashParts val, pyInt part = none := by
  rw [parseTok]
  constructor
  · intro h
    cases hm : mapOpt pyInt (dashParts val) with
    | none => exact exists_none_of_mapOpt hm
    | some xs => rw [hm] at h; exact Except.noConfusion h
  · intro hex
    obtain ⟨part, hmem, hnone⟩ := hex
    rw [mapOpt_eq_none_of_mem hmem hnone]

theorem parseTok_error_elim {val : String} {e : Err}
    (h : parseTok val = Except.error e) : e = Err.FormatError := by
  rw [parseTok] at h
  cases hm : mapOpt pyInt (dashParts val) with
  | none =>
    rw [hm] at h
    injection h with h1
    exact h1.symm
  | some xs => rw [hm] at h; exact Except.noConfusion h

theorem isDigitPart_of_all {cs : List Char} (h1 : cs ≠ [])
    (h2 : ∀ c ∈ cs, c.isDigit) : isDigitPart cs = true := by
  induction cs with
  | nil => exact absurd rfl h1
  | cons c rest ih =>
    cases rest with
    | nil => simpa [isDigitPart] using h2 c (List.mem_cons_self c [])
    | cons d rest2 =>
      have hd : d.isDigit := h2 d (by simp)
      have hdu : d ≠ '_' := by
        intro e; rw [e] at hd; exact absurd hd (by decide)
      have hc : c.isDigit := h2 c (by simp)
      have hrec : isDigitPart (d :: rest2) = true :=
        ih (by simp) (fun x hx => h2 x (List.mem_cons_of_mem c hx))
      simp [isDigitPart, hdu, hc, hrec]

theorem pyInt_of_all_digits {s : String} (h1 : s.data ≠ [])
    (h2 : ∀ c ∈ s.data, c.isDigit) :
    pyInt s = some (Int.ofNat (digitsVal s.data)) := by
  rw [pyInt.eq_def]
  cases hs : s.data with
  | nil => exact absurd hs h1
  | cons c rest =>
    have hc : c.isDigit := h2 c (by rw [hs]; exact List.mem_cons_self c rest)
    have hplus : c ≠ '+' := by intro e; rw [e] at hc; exact absurd hc (by decide)
    have hminus : c ≠ '-' := by intro e; rw [e] at hc; exact absurd hc (by decide)
    have hpart : isDigitPart (c :: rest) = true := by
      refine isDigitPart_of_all (by simp) ?_
      intro x hx
      exact h2 x (by rw [hs]; exact hx)
    simp [hplus, hminus, hpart]

theorem mapExc_error_of_mem {l : List String} {val : String}
    (hmem : val ∈ l) (herr : parseTok val = Except.error Err.FormatError) :
    mapExc parseTok l = Except.error Err.FormatError := by
  induction l with
  | nil => simp at hmem
  | cons x xs ih =>
    rw [mapExc]
    rcases List.mem_cons.mp hmem with rfl | hxs
    · rw [herr]
    · cases hx : parseTok x with
      | error e => rw [show e = Err.FormatError from parseTok_error_elim hx]
      | ok y => rw [show mapExc parseTok xs = Except.error Err.FormatError from ih hxs]

/-! ## Claim theorems -/

/-- C1: `tokenize_sents` maps each source token through `source_dict` and each
target token through `target_dict`, silently dropping out-of-vocabulary
tokens; a pair whose filtered source or target sequence is empty is excluded;
surviving pairs keep their relative input order (the output is the
`filterMap` of the per-pair encoding over the input); and the output length
is at most the input length. -/
theorem c1_encoder_filtering (sps : List SentencePair) (sd td : Vocab) :
    tokenize_sents sps sd td = sps.filterMap (encodePair sd td) ∧
    (tokenize_sents sps sd td).length ≤ sps.length := by
  refine ⟨tokenize_sents_eq_filterMap sps sd td, ?_⟩
  rw [tokenize_sents_eq_filterMap sps sd td]
  exact List.length_filterMap_le _ _

/-- C7: a text field containing a literal, unescaped ampersand still parses
successfully under the repair path taken when an ampersand is present, and
the field's text is preserved verbatim, the literal ampersand intact. -/
theorem c7_literal_ampersand_preserved (cs : List Char) (h : '&' ∈ cs) :
    processRawText cs = some cs := by
  rw [processRawText, if_pos h]
  exact decodeEntities_replaceAmp cs

/-- C7 witness: the concrete field text `a & b` survives intact. -/
theorem c7_witness :
    processRawText (String.data "a & b") = some (String.data "a & b") :=
  c7_literal_ampersand_preserved (String.data "a & b") (by decide)

/-- C6 counterexample: on the already-valid field text `&amp;` (its ampersand
is part of an entity reference), direct parsing yields the single character
`&`, but the blanket replace-and-parse path yields the five characters
`&amp;` — so the two paths are not equivalent on valid input. -/
theorem c6_counterexample :
    decodeEntities (String.data "&amp;") = some ['&'] ∧
    decodeEntities (replaceAmp (String.data "&amp;")) = some (String.data "&amp;") ∧
    ¬ (∀ cs ds : List Char,
        decodeEntities cs = some ds → decodeEntities (replaceAmp cs) = some ds) := by
  refine ⟨by decide, by decide, fun h => ?_⟩
  have h1 : decodeEntities (String.data "&amp;") = some ['&'] := by decide
  have h2 := h (String.data "&amp;") ['&'] h1
  rw [decodeEntities_replaceAmp] at h2
  exact absurd (Option.some.inj h2) (by decide)

/-- C6 (amended): for an input text containing no ampersand at all, the
replace-and-parse path and the direct-parse path extract identical content
(and the code takes the direct path on such input); on valid input containing
an entity reference the blanket replacement changes the extracted text, as
the counterexample shows. -/
theorem c6_amended (cs : List Char) (h : '&' ∉ cs) :
    decodeEntities (replaceAmp cs) = decodeEntities cs ∧
    processRawText cs = decodeEntities cs := by
  rw [replaceAmp_no_amp h, processRawText, if_neg h]
  exact ⟨rfl, rfl⟩

/-- C6 witness: the two paths agree on the ampersand-free text `ab`. -/
theorem c6_witness :
    decodeEntities (replaceAmp (String.data "ab")) = decodeEntities (String.data "ab") ∧
    processRawText (String.data "ab") = decodeEntities (String.data "ab") :=
  c6_amended (String.data "ab") (by decide)

/-- C8 counterexample: the alignment token `1-2-3` does not match the
`int-int` pattern, yet `extract_sentences` raises no FormatError on it — it
silently produces the triple (1, 2, 3). -/
theorem c8_counterexample :
    specIntInt "1-2-3" = false ∧
    parseTok "1-2-3" = Except.ok [(1 : Int), 2, 3] ∧
    parseAlignField (some "1-2-3") = Except.ok [[(1 : Int), 2, 3]] := by
  refine ⟨by decide, by decide, by decide⟩

/-- C8 (amended): an alignment token with a dash-separated part that is not a
decimal integer fails with a FormatError, which propagates out of its
alignment field; a token all of whose parts parse as integers does not fail
but yields the tuple of all its parts — in particular a token matching the
`int-int` pattern yields exactly one pair of two integers. -/
theorem c8_amended :
    (∀ val : String, parseTok val = Except.error Err.FormatError ↔
      ∃ part ∈ dashParts val, pyInt part = none) ∧
    (∀ val : String, specIntInt val = true →
      ∃ i j : Int, parseTok val = Except.ok [i, j]) ∧
    (∀ (txt val : String), val ∈ pySplit txt →
      parseTok val = Except.error Err.FormatError →
      parseAlignField (some txt) = Except.error Err.FormatError) := by
  refine ⟨parseTok_error_iff, ?_, ?_⟩
  · intro val hval
    rw [specIntInt] at hval
    split at hval
    · rename_i a b heq
      simp only [Bool.and_eq_true, Bool.not_eq_true', List.isEmpty_eq_false,
        List.all_eq_true] at hval
      obtain ⟨⟨⟨ha1, ha2⟩, hb1⟩, hb2⟩ := hval
      have hdataa : (List.asString a).data = a := rfl
      have hdatab : (List.asString b).data = b := rfl
      have hpa : pyInt (List.asString a) = some (Int.ofNat (digitsVal a)) := by
        have := pyInt_of_all_digits (s := List.asString a)
          (by rw [hdataa]; exact ha1) (by rw [hdataa]; exact ha2)
        rwa [hdataa] at this
      have hpb : pyInt (List.asString b) = some (Int.ofNat (digitsVal b)) := by
        have := pyInt_of_all_digits (s := List.asString b)
          (by rw [hdatab]; exact hb1) (by rw [hdatab]; exact hb2)
        rwa [hdatab] at this
      refine ⟨Int.ofNat (digitsVal a), Int.ofNat (digitsVal b), ?_⟩
      rw [parseTok, dashParts, heq]
      simp [mapOpt, hpa, hpb]
    · exact absurd hval (by simp)
  · intro txt val hmem herr
    rw [parseAlignField, Option.getD_some]
    exact mapExc_error_of_mem hmem herr

/-- C8 amended witness: the matching token `12-34` yields the pair (12, 34),
and the malformed token `a-2` inside a field makes the field fail with a
FormatError. -/
theorem c8_amended_witness :
    (∃ i j : Int, parseTok "12-34" = Except.ok [i, j]) ∧
    parseAlignField (some "1-2 a-2") = Except.error Err.FormatError :=
  ⟨c8_amended.2.1 "12-34" (by decide),
   c8_amended.2.2 "1-2 a-2" "a-2" (by decide) (by decide)⟩

theorem encodePair_eq_some {sd td : Vocab} {p : SentencePair} {tsp : TokenizedSentencePair}
    (h : encodePair sd td p = some tsp) :
    tsp.source_tokens = p.source.filterMap (fun t => sd.lookup t) ∧
    tsp.target_tokens = p.target.filterMap (fun t => td.lookup t) := by
  rw [encodePair] at h
  split at h
  · exact Option.noConfusion h
  · injection h with h1
    rw [← h1]
    exact ⟨rfl, rfl⟩

theorem get_token_to_index_shape (corpus : List SentencePair) (cutoff : Option Nat) :
    ∃ l1 l2 : List Token, get_token_to_index corpus cutoff = (enumerate l1, enumerate l2) := by
  cases cutoff with
  | none => exact ⟨_, _, rfl⟩
  | some c => exact ⟨_, _, rfl⟩

/-- C4: when `extract_sentences` succeeds, the two returned lists have equal
length, one entry per sentence element, and entry `i` of each list is the
pair and alignment produced from the `i`-th sentence element of the document
in document order. -/
theorem c4_parallel_lists (doc : List SentenceElem) (ps : List SentencePair)
    (als : List LabeledAlignment)
    (h : extract_sentences doc = Except.ok (ps, als)) :
    ps.length = als.length ∧ ps.length = doc.length ∧
    ∀ i (hi : i < doc.length), ∃ (hp : i < ps.length) (ha : i < als.length),
      processSentence (doc.get ⟨i, hi⟩) = Except.ok (ps.get ⟨i, hp⟩, als.get ⟨i, ha⟩) := by
  induction doc generalizing ps als with
  | nil =>
    rw [extract_sentences] at h
    injection h with h1
    rw [Prod.mk.injEq] at h1
    obtain ⟨rfl, rfl⟩ := h1
    simp
  | cons s rest ih =>
    cases hps : processSentence s with
    | error e => simp [extract_sentences, hps] at h
    | ok pa =>
      obtain ⟨p, a⟩ := pa
      cases hrest : extract_sentences rest with
      | error e => simp [extract_sentences, hps, hrest] at h
      | ok pr =>
        obtain ⟨ps2, als2⟩ := pr
        simp only [extract_sentences, hps, hrest] at h
        injection h with h1
        rw [Prod.mk.injEq] at h1
        obtain ⟨rfl, rfl⟩ := h1
        obtain ⟨ihl, ihd, ihe⟩ := ih ps2 als2 hrest
        refine ⟨by simp [ihl], by simp [ihd], ?_⟩
        intro i hi
        cases i with
        | zero => exact ⟨by simp, by simp, by simpa using hps⟩
        | succ n =>
          have hn : n < rest.length := by simpa using hi
          obtain ⟨hp, ha, heq⟩ := ihe n hn
          exact ⟨by simpa using hp, by simpa using ha, by simpa using heq⟩

/-- C4 witness: a concrete one-sentence document. -/
theorem c4_witness :
    ([SentencePair.mk ["the", "dog"] ["pes"]].length
       = [LabeledAlignment.mk [] [[(1 : Int), 2]]].length) ∧
    ([SentencePair.mk ["the", "dog"] ["pes"]].length
       = [SentenceElem.mk (some (some "the dog")) (some (some "pes"))
            (some (some "1-2")) (some none)].length) ∧
    ∀ i (hi : i < [SentenceElem.mk (some (some "the dog")) (some (some "pes"))
            (some (some "1-2")) (some none)].length),
      ∃ (hp : i < [SentencePair.mk ["the", "dog"] ["pes"]].length)
        (ha : i < [LabeledAlignment.mk [] [[(1 : Int), 2]]].length),
      processSentence ([SentenceElem.mk (some (some "the dog")) (some (some "pes"))
            (some (some "1-2")) (some none)].get ⟨i, hi⟩)
        = Except.ok ([SentencePair.mk ["the", "dog"] ["pes"]].get ⟨i, hp⟩,
                     [LabeledAlignment.mk [] [[(1 : Int), 2]]].get ⟨i, ha⟩) :=
  c4_parallel_lists
    [SentenceElem.mk (some (some "the dog")) (some (some "pes"))
      (some (some "1-2")) (some none)]
    [SentencePair.mk ["the", "dog"] ["pes"]]
    [LabeledAlignment.mk [] [[(1 : Int), 2]]]
    (by decide)

theorem splitP_map_filter_all {p : Char → Bool} :
    ∀ cs : List Char, (∀ c ∈ cs, p c) →
      ((splitP p cs).map List.asString).filter (fun t => t ≠ "") = [] := by
  intro cs
  induction cs with
  | nil => intro _; rfl
  | cons c rest ih =>
    intro h
    have hc : p c := h c (by simp)
    have hrest := ih (fun x hx => h x (List.mem_cons_of_mem c hx))
    rw [show splitP p (c :: rest) = [] :: splitP p rest from by simp [splitP, hc]]
    exact hrest

theorem pySplit_all_whitespace {s : String} (h : ∀ c ∈ s.data, c.isWhitespace) :
    pySplit s = [] :=
  splitP_map_filter_all s.data h

/-- C5 counterexample: a sentence element whose english text field is present
but empty fails the extraction instead of yielding an empty token sequence.
ElementTree reports a textless element's text as null, and the code
dereferences it with `.split()` directly, without the `or ""` guard it
applies to the alignment fields — the AttributeError is the taxonomy's
MissingFieldError. -/
theorem c5_counterexample :
    processSentence (SentenceElem.mk (some none) (some (some "pes"))
        (some none) (some none)) = Except.error Err.MissingFieldError ∧
    extract_sentences [SentenceElem.mk (some none) (some (some "pes"))
        (some none) (some none)] = Except.error Err.MissingFieldError :=
  ⟨rfl, rfl⟩

/-- C5 (amended): a sentence element whose source or target text field is
present but empty (hence with null text, as the parser reports it) makes
`extract_sentences` fail with a MissingFieldError once its alignment fields
have parsed — the empty-text tolerance of the specification holds only for
the alignment fields; the nearby true statement is that a present text field
containing only whitespace (hence nonempty) yields an empty token sequence
for its side and does not fail. -/
theorem c5_amended :
    (∀ (e : SentenceElem) (etx ctx pt st : Option String)
        (pa sa : List (List Int)),
      e.english = some etx → e.czech = some ctx →
      e.possible = some pt → e.sure = some st →
      parseAlignField pt = Except.ok pa → parseAlignField st = Except.ok sa →
      etx = none ∨ ctx = none →
      processSentence e = Except.error Err.MissingFieldError) ∧
    (∀ (e : SentenceElem) (et ct : String) (pt st : Option String)
        (pa sa : List (List Int)),
      e.english = some (some et) → e.czech = some (some ct) →
      e.possible = some pt → e.sure = some st →
      parseAlignField pt = Except.ok pa → parseAlignField st = Except.ok sa →
      (∀ c ∈ et.data, c.isWhitespace) →
      processSentence e = Except.ok (⟨[], pySplit ct⟩, ⟨sa, pa⟩)) ∧
    (∀ (e : SentenceElem) (et ct : String) (pt st : Option String)
        (pa sa : List (List Int)),
      e.english = some (some et) → e.czech = some (some ct) →
      e.possible = some pt → e.sure = some st →
      parseAlignField pt = Except.ok pa → parseAlignField st = Except.ok sa →
      (∀ c ∈ ct.data, c.isWhitespace) →
      processSentence e = Except.ok (⟨pySplit et, []⟩, ⟨sa, pa⟩)) := by
  refine ⟨?_, ?_, ?_⟩
  · intro e etx ctx pt st pa sa he hc hp hs hpa hsa hdisj
    rw [processSentence.eq_def, he, hc, hp, hs]
    rcases hdisj with rfl | rfl
    · cases ctx <;> simp [hpa, hsa]
    · cases etx <;> simp [hpa, hsa]
  · intro e et ct pt st pa sa he hc hp hs hpa hsa hws
    rw [processSentence.eq_def, he, hc, hp, hs]
    simp [hpa, hsa, pySplit_all_whitespace hws]
  · intro e et ct pt st pa sa he hc hp hs hpa hsa hws
    rw [processSentence.eq_def, he, hc, hp, hs]
    simp [hpa, hsa, pySplit_all_whitespace hws]

/-- C5 amended witness: a null english text fails with MissingFieldError on a
concrete element, and a whitespace-only english text succeeds with an empty
source token sequence. -/
theorem c5_amended_witness :
    processSentence (SentenceElem.mk (some none) (some (some "a"))
        (some none) (some none)) = Except.error Err.MissingFieldError ∧
    processSentence (SentenceElem.mk (some (some " ")) (some (some "a"))
        (some none) (some none))
      = Except.ok (⟨[], pySplit "a"⟩, ⟨[], []⟩) :=
  ⟨c5_amended.1 (SentenceElem.mk (some none) (some (some "a"))
      (some none) (some none)) none (some "a") none none [] []
      rfl rfl rfl rfl rfl rfl (Or.inl rfl),
   c5_amended.2.1 (SentenceElem.mk (some (some " ")) (some (some "a"))
      (some none) (some none)) " " "a" none none [] []
      rfl rfl rfl rfl rfl rfl (by decide)⟩

/-- C9: a sentence element whose sure or possible alignment field is empty or
has absent (null) text yields an empty list for that alignment component,
and raises no error. -/
theorem c9_empty_alignment_fields (e : SentenceElem) (et ct : String)
    (pt st : Option String)
    (he : e.english = some (some et)) (hc : e.czech = some (some ct))
    (hp : e.possible = some pt) (hs : e.sure = some st)
    (hpt : pt = none ∨ pt = some "") (hst : st = none ∨ st = some "") :
    processSentence e = Except.ok (⟨pySplit et, pySplit ct⟩, ⟨[], []⟩) := by
  have hpa : parseAlignField pt = Except.ok [] := by
    rcases hpt with rfl | rfl <;> rfl
  have hsa : parseAlignField st = Except.ok [] := by
    rcases hst with rfl | rfl <;> rfl
  rw [processSentence.eq_def, he, hc, hp, hs]
  simp [hpa, hsa]

/-- C9 witness: a null `possible` text and an empty `sure` text both yield
empty alignment lists on a concrete element. -/
theorem c9_witness :
    processSentence (SentenceElem.mk (some (some "a")) (some (some "b"))
        (some none) (some (some "")))
      = Except.ok (⟨pySplit "a", pySplit "b"⟩, ⟨[], []⟩) :=
  c9_empty_alignment_fields
    (SentenceElem.mk (some (some "a")) (some (some "b")) (some none) (some (some "")))
    "a" "b" none (some "") rfl rfl rfl rfl (Or.inl rfl) (Or.inr rfl)

/-- C3: every index produced by `tokenize_sents` from vocabularies built by
`get_token_to_index` is a valid index into the respective dictionary: it lies
in `[0, len(dict))`. -/
theorem c3_index_range (corpus sps : List SentencePair) (cutoff : Option Nat)
    (tsp : TokenizedSentencePair)
    (h : tsp ∈ tokenize_sents sps (get_token_to_index corpus cutoff).1
          (get_token_to_index corpus cutoff).2) :
    (∀ i ∈ tsp.source_tokens, i < (get_token_to_index corpus cutoff).1.length) ∧
    (∀ i ∈ tsp.target_tokens, i < (get_token_to_index corpus cutoff).2.length) := by
  obtain ⟨l1, l2, hshape⟩ := get_token_to_index_shape corpus cutoff
  rw [tokenize_sents_eq_filterMap] at h
  obtain ⟨p, _hp, henc⟩ := List.mem_filterMap.mp h
  obtain ⟨hsrc, htgt⟩ := encodePair_eq_some henc
  constructor
  · intro i hi
    rw [hsrc] at hi
    obtain ⟨tkn, _htkn, hlk⟩ := List.mem_filterMap.mp hi
    rw [hshape] at hlk ⊢
    simp only at hlk ⊢
    rw [length_enumerate]
    exact lookup_enumerate_lt hlk
  · intro i hi
    rw [htgt] at hi
    obtain ⟨tkn, _htkn, hlk⟩ := List.mem_filterMap.mp hi
    rw [hshape] at hlk ⊢
    simp only at hlk ⊢
    rw [length_enumerate]
    exact lookup_enumerate_lt hlk

/-- C3 witness: on a concrete one-pair corpus every produced index is below
the vocabulary size. -/
theorem c3_witness :
    (∀ i ∈ (TokenizedSentencePair.mk [0] [0]).source_tokens,
      i < (get_token_to_index [SentencePair.mk ["a"] ["x"]] none).1.length) ∧
    (∀ i ∈ (TokenizedSentencePair.mk [0] [0]).target_tokens,
      i < (get_token_to_index [SentencePair.mk ["a"] ["x"]] none).2.length) :=
  c3_index_range [SentencePair.mk ["a"] ["x"]] [SentencePair.mk ["a"] ["x"]] none
    (TokenizedSentencePair.mk [0] [0]) (by
      have hv : get_token_to_index [SentencePair.mk ["a"] ["x"]] none
          = ([("a", 0)], [("x", 0)]) := by
        simp [get_token_to_index, countFreq, sourceTokens, targetTokens, bump,
          sortLex, enumerate]
        decide
      rw [hv]
      decide)

/-! ## Helper lemmas for the vocabulary builder -/

theorem keys_bump (m : List (Token × Nat)) (t : Token) :
    keys (bump m t) = if t ∈ keys m then keys m else keys m ++ [t] := by
  induction m with
  | nil => simp [bump, keys]
  | cons kv rest ih =>
    obtain ⟨k, v⟩ := kv
    by_cases h : k = t
    · subst h
      simp [bump, keys]
    · have ht : t ≠ k := fun e => h e.symm
      rw [show bump ((k, v) :: rest) t = (k, v) :: bump rest t from by simp [bump, h]]
      rw [show keys ((k, v) :: bump rest t) = k :: keys (bump rest t) from rfl]
      rw [ih]
      rw [show keys ((k, v) :: rest) = k :: keys rest from rfl]
      by_cases h3 : t ∈ keys rest
      · rw [if_pos h3, if_pos (List.mem_cons_of_mem k h3)]
      · rw [if_neg h3, if_neg (by simp [List.mem_cons, ht, h3]), List.cons_append]

theorem keys_foldl_bump (ts : List Token) :
    ∀ m : List (Token × Nat),
      keys (ts.foldl bump m) =
        ts.foldl (fun ks t => if t ∈ ks then ks else ks ++ [t]) (keys m) := by
  induction ts with
  | nil => intro m; rfl
  | cons t rest ih =>
    intro m
    rw [List.foldl_cons, List.foldl_cons, ih (bump m t), keys_bump]

theorem keys_countFreq (ts : List Token) : keys (countFreq ts) = firstOccs ts := by
  rw [countFreq, firstOccs, keys_foldl_bump]
  rfl

theorem freqOf_bump (m : List (Token × Nat)) (t x : Token) :
    freqOf (bump m t) x = if x = t then freqOf m x + 1 else freqOf m x := by
  induction m with
  | nil =>
    by_cases h : x = t
    · subst h; simp [bump, freqOf, List.lookup]
    · simp [bump, freqOf, List.lookup, h, beq_false_of_ne h]
  | cons kv rest ih =>
    obtain ⟨k, v⟩ := kv
    by_cases hk : k = t
    · subst hk
      by_cases hx : x = k
      · subst hx; simp [bump, freqOf, List.lookup]
      · simp [bump, freqOf, List.lookup, hx, beq_false_of_ne hx]
    · rw [show bump ((k, v) :: rest) t = (k, v) :: bump rest t from by simp [bump, hk]]
      by_cases hx : x = k
      · subst hx
        have hxt : x ≠ t := hk
        simp [freqOf, List.lookup, hxt]
      · simp [freqOf, List.lookup, beq_false_of_ne hx] at ih ⊢
        exact ih

theorem freqOf_foldl_bump (ts : List Token) :
    ∀ (m : List (Token × Nat)) (x : Token),
      freqOf (ts.foldl bump m) x = freqOf m x + ts.count x := by
  induction ts with
  | nil => intro m x; simp
  | cons t rest ih =>
    intro m x
    rw [List.foldl_cons, ih (bump m t) x, freqOf_bump, List.count_cons]
    by_cases h : x = t
    · subst h
      simp only [if_pos rfl, beq_self_eq_true, if_true]
      omega
    · have h2 : (t == x) = false := beq_false_of_ne (fun e => h e.symm)
      simp [if_neg h, h2]

theorem freqOf_countFreq (ts : List Token) (x : Token) :
    freqOf (countFreq ts) x = ts.count x := by
  rw [countFreq, freqOf_foldl_bump]
  simp [freqOf, List.lookup]

theorem foldl_occ_spec (ts : List Token) :
    ∀ acc : List Token,
      ∃ news : List Token,
        ts.foldl (fun ks t => if t ∈ ks then ks else ks ++ [t]) acc = acc ++ news ∧
        (∀ x ∈ news, x ∉ acc ∧ x ∈ ts) ∧
        (∀ x ∈ ts, x ∈ acc ∨ x ∈ news) ∧
        news.Nodup ∧
        news.Pairwise (fun a b => ts.indexOf a < ts.indexOf b) := by
  induction ts with
  | nil => intro acc; exact ⟨[], by simp, by simp, by simp, by simp, by simp⟩
  | cons t r ih =>
    intro acc
    rw [List.foldl_cons]
    by_cases ht : t ∈ acc
    · rw [if_pos ht]
      obtain ⟨news, hcat, hnews, hcov, hnd, hpair⟩ := ih acc
      refine ⟨news, hcat, ?_, ?_, hnd, ?_⟩
      · intro x hx
        exact ⟨(hnews x hx).1, List.mem_cons_of_mem t (hnews x hx).2⟩
      · intro x hx
        rcases List.mem_cons.mp hx with rfl | hxr
        · exact Or.inl ht
        · exact hcov x hxr
      · refine hpair.imp_of_mem ?_
        intro a b ha hb hab
        have hat : t ≠ a := fun e => (hnews a ha).1 (e ▸ ht)
        have hbt : t ≠ b := fun e => (hnews b hb).1 (e ▸ ht)
        rw [List.indexOf_cons_ne r hat, List.indexOf_cons_ne r hbt]
        omega
    · rw [if_neg ht]
      obtain ⟨news2, hcat, hnews, hcov, hnd, hpair⟩ := ih (acc ++ [t])
      refine ⟨t :: news2, ?_, ?_, ?_, ?_, ?_⟩
      · rw [hcat, List.append_assoc]
        rfl
      · intro x hx
        rcases List.mem_cons.mp hx with rfl | hx2
        · exact ⟨ht, List.mem_cons_self x r⟩
        · exact ⟨fun hxa => (hnews x hx2).1 (by simp [hxa]),
            List.mem_cons_of_mem t (hnews x hx2).2⟩
      · intro x hx
        rcases List.mem_cons.mp hx with rfl | hxr
        · exact Or.inr (List.mem_cons_self x news2)
        · rcases hcov x hxr with hin | hin
          · rcases List.mem_append.mp hin with h1 | h1
            · exact Or.inl h1
            · simp only [List.mem_singleton] at h1
              exact Or.inr (h1 ▸ List.mem_cons_self t news2)
          · exact Or.inr (List.mem_cons_of_mem t hin)
      · refine List.nodup_cons.mpr ⟨?_, hnd⟩
        intro hmem
        exact (hnews t hmem).1 (by simp)
      · refine List.pairwise_cons.mpr ⟨?_, ?_⟩
        · intro b hb
          have hbt : t ≠ b := fun e => (hnews b hb).1 (by simp [e])
          rw [List.indexOf_cons_self, List.indexOf_cons_ne r hbt]
          omega
        · refine hpair.imp_of_mem ?_
          intro a b ha hb hab
          have hat : t ≠ a := fun e => (hnews a ha).1 (by simp [e])
          have hbt : t ≠ b := fun e => (hnews b hb).1 (by simp [e])
          rw [List.indexOf_cons_ne r hat, List.indexOf_cons_ne r hbt]
          omega

theorem firstOccs_mem (ts : List Token) (x : Token) : x ∈ firstOccs ts ↔ x ∈ ts := by
  obtain ⟨news, hcat, hnews, hcov, _, _⟩ := foldl_occ_spec ts []
  rw [firstOccs, hcat, List.nil_append]
  constructor
  · intro h; exact (hnews x h).2
  · intro h
    rcases hcov x h with h1 | h1
    · simp at h1
    · exact h1

theorem firstOccs_nodup (ts : List Token) : (firstOccs ts).Nodup := by
  obtain ⟨news, hcat, _, _, hnd, _⟩ := foldl_occ_spec ts []
  rw [firstOccs, hcat, List.nil_append]
  exact hnd

theorem firstOccs_pairwise (ts : List Token) :
    (firstOccs ts).Pairwise (fun a b => ts.indexOf a < ts.indexOf b) := by
  obtain ⟨news, hcat, _, _, _, hp⟩ := foldl_occ_spec ts []
  rw [firstOccs, hcat, List.nil_append]
  exact hp

theorem strLe_trans :
    ∀ a b c : Token, decide (a ≤ b) = true → decide (b ≤ c) = true →
      decide (a ≤ c) = true := by
  intro a b c h1 h2
  simp only [decide_eq_true_eq] at h1 h2 ⊢
  exact le_trans h1 h2

theorem strLe_total : ∀ a b : Token, (decide (a ≤ b) || decide (b ≤ a)) = true := by
  intro a b
  simp only [Bool.or_eq_true, decide_eq_true_eq]
  exact le_total a b

theorem sortLex_perm (m : List (Token × Nat)) : (sortLex m).Perm (keys m) :=
  List.mergeSort_perm (m.map Prod.fst) (fun a b => decide (a ≤ b))

theorem sortLex_pairwise_le (m : List (Token × Nat)) :
    (sortLex m).Pairwise (fun a b : Token => a ≤ b) := by
  have h := List.sorted_mergeSort strLe_trans strLe_total (m.map Prod.fst)
  exact h.imp (fun hab => by simpa using hab)

theorem lexVocab_spec (ts : List Token) :
    (keys (enumerate (sortLex (countFreq ts)))).Pairwise (fun a b : Token => a < b) ∧
    (∀ t : Token, ((enumerate (sortLex (countFreq ts))).lookup t).isSome ↔ t ∈ ts) ∧
    (enumerate (sortLex (countFreq ts))).map Prod.snd
      = List.range (enumerate (sortLex (countFreq ts))).length ∧
    (enumerate (sortLex (countFreq ts))).length = ts.dedup.length := by
  have hperm : (sortLex (countFreq ts)).Perm (keys (countFreq ts)) := sortLex_perm _
  have hkeys : keys (countFreq ts) = firstOccs ts := keys_countFreq ts
  have hLnd : (sortLex (countFreq ts)).Nodup :=
    hperm.nodup_iff.mpr (hkeys ▸ firstOccs_nodup ts)
  have hLmem : ∀ x : Token, x ∈ sortLex (countFreq ts) ↔ x ∈ ts := by
    intro x
    rw [hperm.mem_iff, hkeys, firstOccs_mem]
  have hlt : (sortLex (countFreq ts)).Pairwise (fun a b : Token => a < b) := by
    have h := (sortLex_pairwise_le (countFreq ts)).and hLnd
    exact h.imp (fun hab => lt_of_le_of_ne hab.1 hab.2)
  have hocc : (firstOccs ts).Perm ts.dedup := by
    refine (List.perm_ext_iff_of_nodup (firstOccs_nodup ts) (List.nodup_dedup ts)).mpr ?_
    intro a
    rw [firstOccs_mem, List.mem_dedup]
  refine ⟨?_, ?_, ?_, ?_⟩
  · rw [keys_enumerate]
    exact hlt
  · intro t
    rw [lookup_isSome_iff, keys_enumerate]
    exact hLmem t
  · rw [snd_enumerate, length_enumerate]
  · rw [length_enumerate]
    exact (hperm.trans (hkeys ▸ hocc)).length_eq

/-- C2: with `freq_cutoff` unset, each vocabulary contains exactly the
distinct tokens of its language, its keys are in lexicographic ascending
order, its indices are dense `0 .. count-1`, and its size is the number of
distinct tokens; with a cutoff, each vocabulary has size at most the
cutoff. -/
theorem c2_lexicographic_vocab (sps : List SentencePair) (c : Nat) :
    ((keys (get_token_to_index sps none).1).Pairwise (fun a b : Token => a < b) ∧
     (∀ t : Token, ((get_token_to_index sps none).1.lookup t).isSome ↔
        t ∈ sourceTokens sps) ∧
     (get_token_to_index sps none).1.map Prod.snd
       = List.range (get_token_to_index sps none).1.length ∧
     (get_token_to_index sps none).1.length = (sourceTokens sps).dedup.length) ∧
    ((keys (get_token_to_index sps none).2).Pairwise (fun a b : Token => a < b) ∧
     (∀ t : Token, ((get_token_to_index sps none).2.lookup t).isSome ↔
        t ∈ targetTokens sps) ∧
     (get_token_to_index sps none).2.map Prod.snd
       = List.range (get_token_to_index sps none).2.length ∧
     (get_token_to_index sps none).2.length = (targetTokens sps).dedup.length) ∧
    ((get_token_to_index sps (some c)).1.length ≤ c ∧
     (get_token_to_index sps (some c)).2.length ≤ c) := by
  have h1 : (get_token_to_index sps none).1
      = enumerate (sortLex (countFreq (sourceTokens sps))) := rfl
  have h2 : (get_token_to_index sps none).2
      = enumerate (sortLex (countFreq (targetTokens sps))) := rfl
  have h3 : (get_token_to_index sps (some c)).1
      = enumerate ((sortByFreqDesc (countFreq (sourceTokens sps))).take c) := rfl
  have h4 : (get_token_to_index sps (some c)).2
      = enumerate ((sortByFreqDesc (countFreq (targetTokens sps))).take c) := rfl
  refine ⟨?_, ?_, ?_, ?_⟩
  · rw [h1]; exact lexVocab_spec (sourceTokens sps)
  · rw [h2]; exact lexVocab_spec (targetTokens sps)
  · rw [h3, length_enumerate]
    exact List.length_take_le c _
  · rw [h4, length_enumerate]
    exact List.length_take_le c _

/-! ## Helper lemmas for the frequency-cutoff branch (stable descending sort) -/

theorem pair_sublist_of_lt {α : Type} (l : List α) (i j : Nat)
    (hi : i < l.length) (hj : j < l.length) (hij : i < j) :
    [l[i], l[j]].Sublist l := by
  have h1 : [l[i]].Sublist (l.take (i + 1)) := by
    rw [List.singleton_sublist]
    have hlen : i < (l.take (i + 1)).length := by
      rw [List.length_take]
      omega
    have he : (l.take (i + 1))[i] = l[i] := List.getElem_take l
    rw [← he]
    exact List.getElem_mem hlen
  have h2 : [l[j]].Sublist (l.drop (i + 1)) := by
    rw [List.singleton_sublist]
    have hlen : j - (i + 1) < (l.drop (i + 1)).length := by
      rw [List.length_drop]
      omega
    have he : (l.drop (i + 1))[j - (i + 1)] = l[j] := by
      rw [List.getElem_drop]
      congr 1
      omega
    rw [← he]
    exact List.getElem_mem hlen
  have h3 := h1.append h2
  rw [List.take_append_drop] at h3
  exact h3

theorem indexOf_lt_of_pair_sublist {α : Type} [DecidableEq α] :
    ∀ {l : List α}, l.Nodup → ∀ {a b : α}, [a, b].Sublist l →
      l.indexOf a < l.indexOf b := by
  intro l
  induction l with
  | nil =>
    intro _ a b h
    have := List.sublist_nil.mp h
    simp at this
  | cons x rest ih =>
    intro hnd a b h
    have hx : x ∉ rest := (List.nodup_cons.mp hnd).1
    have hnd2 : rest.Nodup := (List.nodup_cons.mp hnd).2
    cases h with
    | cons _ h2 =>
      have ha : a ∈ rest := h2.subset (by simp)
      have hb : b ∈ rest := h2.subset (by simp)
      have hih := ih hnd2 h2
      have hax : x ≠ a := fun e => hx (e ▸ ha)
      have hbx : x ≠ b := fun e => hx (e ▸ hb)
      rw [List.indexOf_cons_ne rest hax, List.indexOf_cons_ne rest hbx]
      omega
    | cons₂ _ h2 =>
      have hb : b ∈ rest := List.singleton_sublist.mp h2
      have hxb : x ≠ b := fun e => hx (e ▸ hb)
      rw [List.indexOf_cons_self, List.indexOf_cons_ne rest hxb]
      omega

theorem indexOf_getElem_of_nodup {α : Type} [DecidableEq α] {l : List α}
    (hnd : l.Nodup) (i : Nat) (hi : i < l.length) : l.indexOf l[i] = i := by
  have hmem : l[i] ∈ l := List.getElem_mem hi
  have hlt : l.indexOf l[i] < l.length := List.indexOf_lt_length.mpr hmem
  have heq : l[l.indexOf l[i]] = l[i] := List.getElem_indexOf hlt
  exact (List.Nodup.getElem_inj_iff hnd).mp heq

theorem eq_of_indexOf_eq {α : Type} [DecidableEq α] {l : List α} {a b : α}
    (ha : a ∈ l) (hb : b ∈ l) (h : l.indexOf a = l.indexOf b) : a = b := by
  have h1 := List.getElem_indexOf (List.indexOf_lt_length.mpr ha)
  have h2 := List.getElem_indexOf (List.indexOf_lt_length.mpr hb)
  rw [← h1, ← h2]
  congr 1

theorem sortByFreqDesc_spec (ts : List Token) :
    (∀ x : Token, x ∈ sortByFreqDesc (countFreq ts) ↔ x ∈ ts) ∧
    (sortByFreqDesc (countFreq ts)).Nodup ∧
    (sortByFreqDesc (countFreq ts)).Pairwise (freqRank ts) ∧
    (sortByFreqDesc (countFreq ts)).length = ts.dedup.length := by
  have htrans : ∀ a b c : Token,
      decide (freqOf (countFreq ts) b ≤ freqOf (countFreq ts) a) = true →
      decide (freqOf (countFreq ts) c ≤ freqOf (countFreq ts) b) = true →
      decide (freqOf (countFreq ts) c ≤ freqOf (countFreq ts) a) = true := by
    intro a b c h1 h2
    simp only [decide_eq_true_eq] at h1 h2 ⊢
    omega
  have htotal : ∀ a b : Token,
      (decide (freqOf (countFreq ts) b ≤ freqOf (countFreq ts) a) ||
       decide (freqOf (countFreq ts) a ≤ freqOf (countFreq ts) b)) = true := by
    intro a b
    simp only [Bool.or_eq_true, decide_eq_true_eq]
    omega
  have hperm : (sortByFreqDesc (countFreq ts)).Perm (keys (countFreq ts)) :=
    List.mergeSort_perm ((countFreq ts).map Prod.fst) _
  have hkeys := keys_countFreq ts
  have hLnd : (keys (countFreq ts)).Nodup := hkeys ▸ firstOccs_nodup ts
  have hMnd : (sortByFreqDesc (countFreq ts)).Nodup := hperm.nodup_iff.mpr hLnd
  have hmem : ∀ x : Token, x ∈ sortByFreqDesc (countFreq ts) ↔ x ∈ ts := by
    intro x
    rw [hperm.mem_iff, hkeys, firstOccs_mem]
  have hLpair : (keys (countFreq ts)).Pairwise
      (fun a b => ts.indexOf a < ts.indexOf b) := hkeys ▸ firstOccs_pairwise ts
  have hsorted := List.sorted_mergeSort htrans htotal ((countFreq ts).map Prod.fst)
  have hocc : (firstOccs ts).Perm ts.dedup := by
    refine (List.perm_ext_iff_of_nodup (firstOccs_nodup ts) (List.nodup_dedup ts)).mpr ?_
    intro a
    rw [firstOccs_mem, List.mem_dedup]
  refine ⟨hmem, hMnd, ?_, (hperm.trans (hkeys ▸ hocc)).length_eq⟩
  rw [List.pairwise_iff_getElem]
  intro i j hi hj hij
  simp only [freqRank]
  have hfreq := List.pairwise_iff_getElem.mp hsorted i j hi hj hij
  simp only [decide_eq_true_eq] at hfreq
  rw [freqOf_countFreq, freqOf_countFreq] at hfreq
  rcases Nat.lt_or_ge (ts.count ((sortByFreqDesc (countFreq ts))[j]))
      (ts.count ((sortByFreqDesc (countFreq ts))[i])) with hlt | hge
  · exact Or.inl hlt
  · have hcnt : ts.count ((sortByFreqDesc (countFreq ts))[i])
        = ts.count ((sortByFreqDesc (countFreq ts))[j]) := le_antisymm hge hfreq
    refine Or.inr ⟨hcnt, ?_⟩
    by_contra hcon
    push_neg at hcon
    have hne : (sortByFreqDesc (countFreq ts))[i] ≠ (sortByFreqDesc (countFreq ts))[j] := by
      intro he
      have := (List.Nodup.getElem_inj_iff hMnd).mp he
      omega
    have hmemi : (sortByFreqDesc (countFreq ts))[i] ∈ ts :=
      (hmem _).mp (List.getElem_mem hi)
    have hmemj : (sortByFreqDesc (countFreq ts))[j] ∈ ts :=
      (hmem _).mp (List.getElem_mem hj)
    have hidx : ts.indexOf ((sortByFreqDesc (countFreq ts))[j])
        < ts.indexOf ((sortByFreqDesc (countFreq ts))[i]) := by
      rcases Nat.lt_trichotomy (ts.indexOf ((sortByFreqDesc (countFreq ts))[j]))
          (ts.indexOf ((sortByFreqDesc (countFreq ts))[i])) with h | h | h
      · exact h
      · exact absurd (eq_of_indexOf_eq hmemj hmemi h) (Ne.symm hne)
      · omega
    have hmemLi : (sortByFreqDesc (countFreq ts))[i] ∈ keys (countFreq ts) :=
      hperm.mem_iff.mp (List.getElem_mem hi)
    have hmemLj : (sortByFreqDesc (countFreq ts))[j] ∈ keys (countFreq ts) :=
      hperm.mem_iff.mp (List.getElem_mem hj)
    have hpi : (keys (countFreq ts)).indexOf ((sortByFreqDesc (countFreq ts))[i])
        < (keys (countFreq ts)).length := List.indexOf_lt_length.mpr hmemLi
    have hpj : (keys (countFreq ts)).indexOf ((sortByFreqDesc (countFreq ts))[j])
        < (keys (countFreq ts)).length := List.indexOf_lt_length.mpr hmemLj
    have hposs : (keys (countFreq ts)).indexOf ((sortByFreqDesc (countFreq ts))[j])
        < (keys (countFreq ts)).indexOf ((sortByFreqDesc (countFreq ts))[i]) := by
      rcases Nat.lt_trichotomy
          ((keys (countFreq ts)).indexOf ((sortByFreqDesc (countFreq ts))[j]))
          ((keys (countFreq ts)).indexOf ((sortByFreqDesc (countFreq ts))[i]))
          with h | h | h
      · exact h
      · exact absurd (eq_of_indexOf_eq hmemLj hmemLi h) (Ne.symm hne)
      · have h2 := List.pairwise_iff_getElem.mp hLpair
          ((keys (countFreq ts)).indexOf ((sortByFreqDesc (countFreq ts))[i]))
          ((keys (countFreq ts)).indexOf ((sortByFreqDesc (countFreq ts))[j]))
          hpi hpj h
        rw [List.getElem_indexOf hpi, List.getElem_indexOf hpj] at h2
        omega
    have hsubL : [(sortByFreqDesc (countFreq ts))[j],
        (sortByFreqDesc (countFreq ts))[i]].Sublist (keys (countFreq ts)) := by
      have h2 := pair_sublist_of_lt (keys (countFreq ts))
        ((keys (countFreq ts)).indexOf ((sortByFreqDesc (countFreq ts))[j]))
        ((keys (countFreq ts)).indexOf ((sortByFreqDesc (countFreq ts))[i]))
        hpj hpi hposs
      rw [List.getElem_indexOf hpj, List.getElem_indexOf hpi] at h2
      exact h2
    have hleba : decide (freqOf (countFreq ts) ((sortByFreqDesc (countFreq ts))[i])
        ≤ freqOf (countFreq ts) ((sortByFreqDesc (countFreq ts))[j])) = true := by
      simp only [decide_eq_true_eq]
      rw [freqOf_countFreq, freqOf_countFreq]
      omega
    have hsubM := List.pair_sublist_mergeSort htrans htotal hleba hsubL
    have hidxM := indexOf_lt_of_pair_sublist hMnd hsubM
    rw [indexOf_getElem_of_nodup hMnd j hj, indexOf_getElem_of_nodup hMnd i hi] at hidxM
    omega

theorem cutoffVocab_spec (ts : List Token) (c : Nat) :
    ∃ full : List Token,
      (∀ t : Token, t ∈ full ↔ t ∈ ts) ∧
      full.Pairwise (freqRank ts) ∧
      keys (enumerate ((sortByFreqDesc (countFreq ts)).take c)) = full.take c ∧
      (enumerate ((sortByFreqDesc (countFreq ts)).take c)).map Prod.snd
        = List.range (min c ts.dedup.length) := by
  obtain ⟨hmem, _hnd, hpair, hlen⟩ := sortByFreqDesc_spec ts
  refine ⟨sortByFreqDesc (countFreq ts), hmem, hpair, keys_enumerate _, ?_⟩
  rw [snd_enumerate, List.length_take, hlen]

/-- C10: with a positive cutoff, `get_token_to_index` selects and indexes,
per language, the distinct tokens ordered by non-increasing corpus frequency,
ties broken by earlier first occurrence in the corpus token stream (Python's
sort is stable and the frequency dict iterates in first-occurrence order);
the kept keys are the first `freq_cutoff` entries of that order, and the
indices are dense `0 .. k-1` with `k = min freq_cutoff (number of distinct
tokens)`. -/
theorem c10_cutoff_order (sps : List SentencePair) (c : Nat) :
    (∃ full : List Token,
      (∀ t : Token, t ∈ full ↔ t ∈ sourceTokens sps) ∧
      full.Pairwise (freqRank (sourceTokens sps)) ∧
      keys (get_token_to_index sps (some c)).1 = full.take c ∧
      (get_token_to_index sps (some c)).1.map Prod.snd
        = List.range (min c (sourceTokens sps).dedup.length)) ∧
    (∃ full : List Token,
      (∀ t : Token, t ∈ full ↔ t ∈ targetTokens sps) ∧
      full.Pairwise (freqRank (targetTokens sps)) ∧
      keys (get_token_to_index sps (some c)).2 = full.take c ∧
      (get_token_to_index sps (some c)).2.map Prod.snd
        = List.range (min c (targetTokens sps).dedup.length)) := by
  constructor
  · have h : (get_token_to_index sps (some c)).1
        = enumerate ((sortByFreqDesc (countFreq (sourceTokens sps))).take c) := rfl
    rw [h]
    exact cutoffVocab_spec (sourceTokens sps) c
  · have h : (get_token_to_index sps (some c)).2
        = enumerate ((sortByFreqDesc (countFreq (targetTokens sps))).take c) := rfl
    rw [h]
    exact cutoffVocab_spec (targetTokens sps) c

end Preprocessing
